import Mathlib

/-!
Verification of the codeq binary serialization library.

The development shallowly embeds the library's codec subsystem:

* Byte streams are `List Nat` with every element below 256.
* Encoders are pure functions `α → List Nat` (the Rust encoders write into an
  infallible `Vec<u8>` sink and return the number of bytes written, which for
  every implementation in the crate equals the number of bytes produced).
* Decoders are functions `List Nat → Except Err (α × Nat)` returning the
  decoded value together with the exact number of bytes consumed from the
  front of the stream; the suffix from that position on is left for the next
  decoder, mirroring sequential reads from an `io::Read` stream.
* The CRC32 hasher used by the `Crc32fast` configuration is the standard
  CRC-32/ISO-HDLC algorithm of the external `crc32fast` crate (reflected
  polynomial 0xEDB88320, initial register 0xFFFFFFFF, final xor 0xFFFFFFFF);
  the model is validated below against the byte-exact test vectors recorded
  in the repository's own tests (`foobar`, `Segment::new(5, 10)`,
  `WithChecksum::<u64>::new(5)`).
-/

/-- Big-endian byte encoding of `x` into exactly `k` bytes (the behaviour of
`byteorder::WriteBytesExt::write_u{8,32,64}::<BigEndian>`; values wider than
`k` bytes are truncated to their low `k` bytes, as the Rust integer types
guarantee by construction). -/
def beBytes : Nat → Nat → List Nat
  | 0, _ => []
  | k + 1, x => beBytes k (x / 256) ++ [x % 256]

/-- Big-endian value of a byte list (the behaviour of
`byteorder::ReadBytesExt::read_u{8,32,64}::<BigEndian>` on the bytes read). -/
def beVal (l : List Nat) : Nat := l.foldl (fun a b => a * 256 + b) 0

/-- The reflected CRC-32 (ISO-HDLC) polynomial used by `crc32fast`. -/
def P32 : Nat := 0xEDB88320

/-- One bit step of the reflected CRC-32 register update. -/
def bitstep (s : Nat) : Nat :=
  if s % 2 = 1 then (s >>> 1) ^^^ P32 else s >>> 1

/-- Feeding one byte into the CRC-32 register (xor into the low bits, then
eight bit steps). -/
def byteStep (s b : Nat) : Nat := bitstep^[8] (s ^^^ b)

/-- `Hasher::write`: feeding a byte sequence into the CRC-32 register. -/
def crcFold (s : Nat) (l : List Nat) : Nat := l.foldl byteStep s

/-- Initial CRC-32 register of `crc32fast::Hasher::default()`. -/
def crcInitReg : Nat := 0xFFFFFFFF

/-- `Hasher::finish`: final xor producing the digest from the register. -/
def hFinish (s : Nat) : Nat := s ^^^ 0xFFFFFFFF

/-- One-shot CRC-32 digest of a byte sequence (`crc32fast::hash`, and
`CodeqConfig::hash` for the `Crc32fast` configuration). -/
def crc32 (l : List Nat) : Nat := hFinish (crcFold crcInitReg l)

/-- Kinds of `io::Error` the embedded code distinguishes. -/
inductive ErrKind where
  | unexpectedEof
  | invalidData
deriving DecidableEq, Repr

/-- An `io::Error`: a kind together with its message. -/
abbrev Err := ErrKind × String

/-- A decoder: consumes a prefix of the byte stream, returning the value and
the number of bytes consumed, or an error. -/
abbrev DecM (α : Type) := List Nat → Except Err (α × Nat)

/-- Message of the `io::ErrorKind::UnexpectedEof` error produced by
`Read::read_exact` on a short stream. -/
def eofMsg : String := "failed to fill whole buffer"

/-- Reading exactly `n` bytes from the stream (`read_exact` and the
`read_uXX` helpers of `byteorder`). -/
def readN (n : Nat) : DecM (List Nat) := fun s =>
  if n ≤ s.length then .ok (s.take n, n) else .error (.unexpectedEof, eofMsg)

/-- Lowercase hexadecimal rendering of a number, as Rust's `{:x}` format. -/
def digitsHex (n : Nat) : String := ⟨Nat.toDigits 16 n⟩

/-- First fragment of the checksum-mismatch message in
`ChecksumReader::verify_checksum`. -/
def expectedPart : String := "crc32 checksum mismatch: expected "

/-- Second fragment of the checksum-mismatch message. -/
def gotPart : String := ", got "

/-- Third fragment of the checksum-mismatch message. -/
def whilePart : String := ", while "

/-- The full checksum-mismatch message format of
`ChecksumReader::verify_checksum`. -/
def mismatchMsg (actual got : Nat) (ctx : String) : String :=
  expectedPart ++ digitsHex actual ++ gotPart ++ digitsHex got ++ whilePart ++ ctx

/-- `ChecksumReader::verify_checksum(context)`: reads 8 more bytes from the
inner stream as a big-endian u64 and compares them with the digest `actual`
accumulated so far; mismatch produces an `InvalidData` error embedding both
digests in hex and the context string. -/
def verifyChecksum (actual : Nat) (ctx : String) : DecM Unit := fun s =>
  match readN 8 s with
  | .error e => .error e
  | .ok (cb, n) =>
    let got := beVal cb
    if actual = got then .ok ((), n)
    else .error (.invalidData, mismatchMsg actual got ctx)

/-- State of a `ChecksumWriter` over an in-memory `Vec<u8>` sink: the hasher
register and the bytes written to the inner writer so far. -/
abbrev CkState := Nat × List Nat

/-- Fresh `ChecksumWriter` over an empty `Vec<u8>`. -/
def ckInit : CkState := (crcInitReg, [])

/-- `io::Write::write` for `ChecksumWriter` over a `Vec<u8>` sink: the buffer
is fed to the hasher and then forwarded (in full) to the inner vector. -/
def ckWrite (st : CkState) (buf : List Nat) : CkState :=
  (crcFold st.1 buf, st.2 ++ buf)

/-- `ChecksumWriter::write_checksum`: appends the finalized digest as an
8-byte big-endian trailer and returns 8. -/
def ckWriteChecksum (st : CkState) : List Nat × Nat :=
  (st.2 ++ beBytes 8 (hFinish st.1), 8)

/-- `WithChecksum<C, T>::encode`: encode the payload through a fresh
`ChecksumWriter`, then `write_checksum`. -/
def wcEncode {α : Type} (e : α → List Nat) (a : α) : List Nat :=
  (ckWriteChecksum (ckWrite ckInit (e a))).1

/-- The context string of `WithChecksum::decode`. -/
def wcCtx : String := "WithChecksum::decode()"

/-- `WithChecksum<C, T>` wraps one value of `T`; equality is delegated to the
inner value. -/
structure WithChecksum (α : Type) where
  data : α
deriving DecidableEq, Repr

/-- `WithChecksum<C, T>::decode`: decode the payload through a fresh
`ChecksumReader` (whose hasher accumulates exactly the consumed prefix of the
stream), then `verify_checksum`. -/
def wcDecode {α : Type} (dA : DecM α) : DecM (WithChecksum α) := fun s =>
  match dA s with
  | .error e => .error e
  | .ok (a, n) =>
    match verifyChecksum (crc32 (s.take n)) wcCtx (s.drop n) with
    | .error e => .error e
    | .ok (_, m) => .ok (⟨a⟩, n + m)

/-- `Segment<C>`: an offset/size pair (two u64 fields); the checksum
configuration is a phantom parameter and is left implicit. -/
structure Segment where
  offset : Nat
  size : Nat
deriving DecidableEq, Repr

/-- `Segment::encode`: write offset and size (8 bytes big-endian each)
through a `ChecksumWriter`, then `write_checksum`. 24 bytes total. -/
def Segment.encode (g : Segment) : List Nat :=
  (ckWriteChecksum (ckWrite (ckWrite ckInit (beBytes 8 g.offset)) (beBytes 8 g.size))).1

/-- The context string of `Segment::decode`. -/
def segmentCtx : String := "Segment::decode()"

/-- `Segment::decode`: read offset and size through a `ChecksumReader` (whose
hasher accumulates the 16 bytes read), then `verify_checksum`. -/
def Segment.decode : DecM Segment := fun s =>
  match readN 8 s with
  | .error e => .error e
  | .ok (ob, _) =>
    match readN 8 (s.drop 8) with
    | .error e => .error e
    | .ok (sb, _) =>
      match verifyChecksum (crc32 (ob ++ sb)) segmentCtx (s.drop 16) with
      | .error e => .error e
      | .ok (_, m) => .ok (⟨beVal ob, beVal sb⟩, 16 + m)

/-- `FixedSize::encoded_size` for `bool`. -/
def boolEncodedSize : Nat := 1

/-- `Encode for bool`: one byte, 1 for true and 0 for false. -/
def boolEncode (b : Bool) : List Nat := [if b then 1 else 0]

/-- Message prefix of the invalid-bool error. -/
def invalidBoolMsg : String := "Invalid bool value: "

/-- `Decode for bool`: read one byte; values above 1 are `InvalidData`. -/
def boolDecode : DecM Bool := fun s =>
  match readN 1 s with
  | .error e => .error e
  | .ok (bs, n) =>
    let b := beVal bs
    if b > 1 then .error (.invalidData, invalidBoolMsg ++ toString b)
    else .ok (b != 0, n)

/-- Message prefix of the invalid-`Option`-tag error. -/
def invalidTagMsg : String := "Invalid tag: "

/-- Message of the invalid-UTF-8 error produced by `String::from_utf8`. -/
def invalidUtf8Msg : String := "invalid utf-8 sequence"

/-- Whether `c` is a UTF-8 continuation byte. -/
def utf8Cont (c : Nat) : Bool := 0x80 ≤ c && c ≤ 0xBF

/-- The UTF-8 well-formedness check performed by `String::from_utf8`
(RFC 3629: no overlong forms, no surrogates, at most U+10FFFF). -/
def utf8Valid : List Nat → Bool
  | [] => true
  | b :: rest =>
    if b < 0x80 then utf8Valid rest
    else if 0xC2 ≤ b && b ≤ 0xDF then
      match rest with
      | c1 :: r => utf8Cont c1 && utf8Valid r
      | [] => false
    else if b = 0xE0 then
      match rest with
      | c1 :: c2 :: r => (0xA0 ≤ c1 && c1 ≤ 0xBF) && utf8Cont c2 && utf8Valid r
      | _ => false
    else if (0xE1 ≤ b && b ≤ 0xEC) || b = 0xEE || b = 0xEF then
      match rest with
      | c1 :: c2 :: r => utf8Cont c1 && utf8Cont c2 && utf8Valid r
      | _ => false
    else if b = 0xED then
      match rest with
      | c1 :: c2 :: r => (0x80 ≤ c1 && c1 ≤ 0x9F) && utf8Cont c2 && utf8Valid r
      | _ => false
    else if b = 0xF0 then
      match rest with
      | c1 :: c2 :: c3 :: r =>
        (0x90 ≤ c1 && c1 ≤ 0xBF) && utf8Cont c2 && utf8Cont c3 && utf8Valid r
      | _ => false
    else if 0xF1 ≤ b && b ≤ 0xF3 then
      match rest with
      | c1 :: c2 :: c3 :: r => utf8Cont c1 && utf8Cont c2 && utf8Cont c3 && utf8Valid r
      | _ => false
    else if b = 0xF4 then
      match rest with
      | c1 :: c2 :: c3 :: r =>
        (0x80 ≤ c1 && c1 ≤ 0x8F) && utf8Cont c2 && utf8Cont c3 && utf8Valid r
      | _ => false
    else false
termination_by l => l.length
decreasing_by all_goals (simp [List.length_cons] <;> omega)

/-- Codes for the value types that implement `Encode`/`Decode` in the crate:
the fixed-width integers, `String`, `Vec<u8>`, `()`, `Option<T>`, 2-tuples,
`Segment` and `WithChecksum<T>`. -/
inductive Ty where
  | tU8
  | tU32
  | tU64
  | tStr
  | tVec
  | tUnit
  | tOpt (t : Ty)
  | tPair (a b : Ty)
  | tSeg
  | tWC (t : Ty)

/-- The Lean type of values of each codec type. Strings and byte vectors are
their byte lists; integers are their numeric values. -/
@[reducible]
def Ty.denote : Ty → Type
  | .tU8 => Nat
  | .tU32 => Nat
  | .tU64 => Nat
  | .tStr => List Nat
  | .tVec => List Nat
  | .tUnit => Unit
  | .tOpt t => Option t.denote
  | .tPair a b => a.denote × b.denote
  | .tSeg => Segment
  | .tWC t => WithChecksum t.denote

/-- Well-formedness of a value as an inhabitant of the corresponding Rust
type: integers fit their width, string/vector elements are bytes, strings
are valid UTF-8. The length bound `< 2^32` on strings and byte vectors
reflects the crate's u32 length prefix (see the analysis of C4/C5). -/
def Ty.wf : (t : Ty) → t.denote → Prop
  | .tU8, v => v < 2 ^ 8
  | .tU32, v => v < 2 ^ 32
  | .tU64, v => v < 2 ^ 64
  | .tStr, v => utf8Valid v = true ∧ (∀ b ∈ v, b < 256) ∧ v.length < 2 ^ 32
  | .tVec, v => (∀ b ∈ v, b < 256) ∧ v.length < 2 ^ 32
  | .tUnit, _ => True
  | .tOpt t, v => ∀ x, v = some x → t.wf x
  | .tPair a b, v => a.wf v.1 ∧ b.wf v.2
  | .tSeg, g => g.offset < 2 ^ 64 ∧ g.size < 2 ^ 64
  | .tWC t, v => t.wf v.data

/-- The `Encode` implementations of the crate. -/
def Ty.encode : (t : Ty) → t.denote → List Nat
  | .tU8, v => beBytes 1 v
  | .tU32, v => beBytes 4 v
  | .tU64, v => beBytes 8 v
  | .tStr, v => beBytes 4 v.length ++ v
  | .tVec, v => beBytes 4 v.length ++ v
  | .tUnit, _ => []
  | .tOpt t, v =>
    match v with
    | some x => beBytes 1 1 ++ t.encode x
    | none => beBytes 1 0
  | .tPair a b, v => a.encode v.1 ++ b.encode v.2
  | .tSeg, g => g.encode
  | .tWC t, v => wcEncode t.encode v.data

/-- The `Decode` implementations of the crate. -/
def Ty.decode : (t : Ty) → DecM t.denote
  | .tU8 => fun s =>
    match readN 1 s with
    | .error e => .error e
    | .ok (bs, n) => .ok (beVal bs, n)
  | .tU32 => fun s =>
    match readN 4 s with
    | .error e => .error e
    | .ok (bs, n) => .ok (beVal bs, n)
  | .tU64 => fun s =>
    match readN 8 s with
    | .error e => .error e
    | .ok (bs, n) => .ok (beVal bs, n)
  | .tStr => fun s =>
    match readN 4 s with
    | .error e => .error e
    | .ok (lb, _) =>
      match readN (beVal lb) (s.drop 4) with
      | .error e => .error e
      | .ok (bs, n) =>
        if utf8Valid bs then .ok (bs, 4 + n)
        else .error (.invalidData, invalidUtf8Msg)
  | .tVec => fun s =>
    match readN 4 s with
    | .error e => .error e
    | .ok (lb, _) =>
      match readN (beVal lb) (s.drop 4) with
      | .error e => .error e
      | .ok (bs, n) => .ok (bs, 4 + n)
  | .tUnit => fun _ => .ok ((), 0)
  | .tOpt t => fun s =>
    match readN 1 s with
    | .error e => .error e
    | .ok (tb, _) =>
      let tag := beVal tb
      if tag = 0 then .ok (none, 1)
      else if tag = 1 then
        match t.decode (s.drop 1) with
        | .error e => .error e
        | .ok (x, n) => .ok (some x, 1 + n)
      else .error (.invalidData, invalidTagMsg ++ toString tag)
  | .tPair a b => fun s =>
    match a.decode s with
    | .error e => .error e
    | .ok (x, n) =>
      match b.decode (s.drop n) with
      | .error e => .error e
      | .ok (y, m) => .ok ((x, y), n + m)
  | .tSeg => Segment.decode
  | .tWC t => wcDecode t.decode

/-- The `FixedSize` implementations of the crate: `some` for types with an
`encoded_size`, `none` for the rest (`String`, `Vec<u8>` and 2-tuples have no
`FixedSize` impl). -/
def Ty.encodedSize : Ty → Option Nat
  | .tU8 => some 1
  | .tU32 => some 4
  | .tU64 => some 8
  | .tStr => none
  | .tVec => none
  | .tUnit => some 0
  | .tOpt t => t.encodedSize.map (1 + ·)
  | .tPair _ _ => none
  | .tSeg => some 24
  | .tWC t => t.encodedSize.map (· + 8)

/-- Whether a value contains no `None` anywhere (the values on which the
`FixedSize` promise is actually met by `Encode`). -/
def Ty.noNone : (t : Ty) → t.denote → Prop
  | .tOpt _, none => False
  | .tOpt t, some x => t.noNone x
  | .tPair a b, v => a.noNone v.1 ∧ b.noNone v.2
  | .tWC t, v => t.noNone v.data
  | _, _ => True

/-- Whether an `Except` result is an error. -/
def isErr {ε α : Type} : Except ε α → Bool
  | .error _ => true
  | .ok _ => false

/-- An abstract inner `io::Write`: given its state and a buffer it returns
the new state and either the number of bytes it accepted or an error. -/
structure InnerWriter (σ : Type) where
  write : σ → List Nat → σ × Except Err Nat

/-- An abstract inner `io::Read`: given its state and a buffer capacity it
returns the new state and either the bytes it filled in or an error. -/
structure InnerReader (σ : Type) where
  read : σ → Nat → σ × Except Err (List Nat)

/-- `io::Write::write` for `ChecksumWriter` over an abstract inner writer:
the hasher is fed the whole buffer first, then the write is delegated. -/
def ChecksumWriter.write {σ : Type} (W : InnerWriter σ) (st : Nat × σ)
    (buf : List Nat) : (Nat × σ) × Except Err Nat :=
  let h := crcFold st.1 buf
  let p := W.write st.2 buf
  ((h, p.1), p.2)

/-- `io::Read::read` for `ChecksumReader` over an abstract inner reader: the
inner read is delegated first; on success with more than zero bytes read,
exactly the bytes read are fed to the hasher. -/
def ChecksumReader.read {σ : Type} (R : InnerReader σ) (st : Nat × σ)
    (cap : Nat) : (Nat × σ) × Except Err (List Nat) :=
  let p := R.read st.2 cap
  match p.2 with
  | .ok bs => ((if 0 < bs.length then crcFold st.1 bs else st.1, p.1), .ok bs)
  | .error e => ((st.1, p.1), .error e)

/-- Wrapping subtraction on u64 (two's-complement behaviour of `a - b` in a
release build). -/
def u64sub (a b : Nat) : Nat := (2 ^ 64 + a - b) % 2 ^ 64

/-- `Offset`: a newtype over u64. -/
structure Offset where
  val : Nat
deriving DecidableEq, Repr

/-- `Size`: a newtype over u64. -/
structure Size where
  val : Nat
deriving DecidableEq, Repr

/-- `impl Sub<Size> for Offset`: `Offset(*self - *rhs)`. -/
def Offset.subSize (o : Offset) (s : Size) : Offset := ⟨u64sub o.val s.val⟩

/-- `impl Sub for Offset`: `Size(*self - *rhs)`. -/
def Offset.subOffset (a b : Offset) : Size := ⟨u64sub a.val b.val⟩

/-- The derived `Sub` of `Size`: fieldwise u64 subtraction. -/
def Size.subSize (a b : Size) : Size := ⟨u64sub a.val b.val⟩

/-- A concrete inner writer: a `Vec<u8>` sink that accepts every byte. -/
def listWriter : InnerWriter (List Nat) :=
  ⟨fun st buf => (st ++ buf, .ok buf.length)⟩

/-- A concrete inner reader: a byte-slice reader that hands out its prefix. -/
def listReader : InnerReader (List Nat) :=
  ⟨fun st cap => (st.drop cap, .ok (st.take cap))⟩

/-! Basic properties of the byte-level primitives. -/

theorem beBytes_length (k x : Nat) : (beBytes k x).length = k := by
  induction k generalizing x with
  | zero => rfl
  | succ k ih => simp [beBytes, ih]

theorem beBytes_lt (k x : Nat) : ∀ b ∈ beBytes k x, b < 256 := by
  induction k generalizing x with
  | zero => simp [beBytes]
  | succ k ih =>
    intro b hb
    simp only [beBytes, List.mem_append, List.mem_singleton] at hb
    rcases hb with hb | hb
    · exact ih _ b hb
    · omega

theorem beVal_go (l : List Nat) : ∀ a : Nat,
    l.foldl (fun a b => a * 256 + b) a = a * 256 ^ l.length + beVal l := by
  induction l with
  | nil => intro a; simp [beVal]
  | cons b r ih =>
    intro a
    have hb : beVal (b :: r) = b * 256 ^ r.length + beVal r := by
      simp only [beVal, List.foldl_cons]
      rw [ih (0 * 256 + b)]
      simp [beVal]
    simp only [List.foldl_cons, List.length_cons]
    rw [ih (a * 256 + b), hb]
    ring

theorem beVal_cons (b : Nat) (r : List Nat) :
    beVal (b :: r) = b * 256 ^ r.length + beVal r := by
  simp only [beVal, List.foldl_cons]
  rw [beVal_go r (0 * 256 + b)]
  simp [beVal]

theorem beVal_append (l r : List Nat) :
    beVal (l ++ r) = beVal l * 256 ^ r.length + beVal r := by
  simp only [beVal, List.foldl_append]
  rw [beVal_go r (List.foldl (fun a b => a * 256 + b) 0 l)]
  simp [beVal]

theorem beVal_lt (l : List Nat) (h : ∀ b ∈ l, b < 256) :
    beVal l < 256 ^ l.length := by
  induction l with
  | nil => simp [beVal]
  | cons b r ih =>
    rw [beVal_cons]
    have hb : b < 256 := h b (by simp)
    have hr : beVal r < 256 ^ r.length := ih (fun x hx => h x (by simp [hx]))
    have : b * 256 ^ r.length + 256 ^ r.length ≤ 256 * 256 ^ r.length := by
      have : (b + 1) * 256 ^ r.length ≤ 256 * 256 ^ r.length :=
        Nat.mul_le_mul_right _ (by omega)
      nlinarith [this]
    simp only [List.length_cons, pow_succ]
    nlinarith [hr, this]

theorem beVal_beBytes (k x : Nat) : beVal (beBytes k x) = x % 256 ^ k := by
  induction k generalizing x with
  | zero => simp [beBytes, beVal, Nat.mod_one]
  | succ k ih =>
    simp only [beBytes]
    rw [beVal_append, ih]
    have h1 : beVal [x % 256] = x % 256 := by simp [beVal]
    have h2 : (256 : Nat) ^ (k + 1) = 256 * 256 ^ k := by ring
    rw [h1, h2, Nat.mod_mul]
    simp only [List.length_singleton, pow_one]
    omega

theorem beVal_beBytes_of_lt {k x : Nat} (h : x < 256 ^ k) :
    beVal (beBytes k x) = x := by
  rw [beVal_beBytes, Nat.mod_eq_of_lt h]

theorem readN_of_le {n : Nat} {s : List Nat} (h : n ≤ s.length) :
    readN n s = .ok (s.take n, n) := by
  simp [readN, h]

theorem readN_prefix (l rest : List Nat) :
    readN l.length (l ++ rest) = .ok (l, l.length) := by
  rw [readN_of_le (by simp)]
  rw [List.take_left]

theorem beVal_single_ne {x y : Nat} (pre suf : List Nat) (hxy : x ≠ y) :
    beVal (pre ++ x :: suf) ≠ beVal (pre ++ y :: suf) := by
  intro h
  rw [beVal_append, beVal_append, beVal_cons, beVal_cons] at h
  have hS : 0 < 256 ^ suf.length := Nat.pos_pow_of_pos _ (by omega)
  have : x * 256 ^ suf.length = y * 256 ^ suf.length := by
    simp only [List.length_cons] at h
    omega
  exact hxy (Nat.eq_of_mul_eq_mul_right hS this)

/-! CRC-32 register algebra: the bit step is GF(2)-linear and invertible on
32-bit states, hence a nonzero error pattern can never cancel. -/

theorem shiftRight_one_xor (a b : Nat) :
    (a ^^^ b) >>> 1 = a >>> 1 ^^^ b >>> 1 := by
  apply Nat.eq_of_testBit_eq
  intro i
  simp [Nat.testBit_shiftRight, Nat.testBit_xor]

theorem xor_mod_two (a b : Nat) : (a ^^^ b) % 2 = (a % 2 + b % 2) % 2 := by
  have h := Nat.testBit_xor a b 0
  simp only [Nat.testBit_zero] at h
  have ha := Nat.mod_two_eq_zero_or_one a
  have hb := Nat.mod_two_eq_zero_or_one b
  rcases ha with ha | ha <;> rcases hb with hb | hb <;>
    simp [ha, hb] at h ⊢ <;> omega

theorem xor_pp_cancel (x y : Nat) : (x ^^^ P32) ^^^ (y ^^^ P32) = x ^^^ y := by
  rw [Nat.xor_assoc, Nat.xor_comm y P32, Nat.xor_cancel_left]

theorem bitstep_xor (x y : Nat) : bitstep (x ^^^ y) = bitstep x ^^^ bitstep y := by
  have hm := xor_mod_two x y
  have hsh := shiftRight_one_xor x y
  unfold bitstep
  rcases Nat.mod_two_eq_zero_or_one x with hx | hx <;>
    rcases Nat.mod_two_eq_zero_or_one y with hy | hy
  · have hxy : (x ^^^ y) % 2 = 0 := by omega
    rw [if_neg (by omega), if_neg (by omega), if_neg (by omega), hsh]
  · have hxy : (x ^^^ y) % 2 = 1 := by omega
    rw [if_pos hxy, if_neg (by omega), if_pos hy, hsh, Nat.xor_assoc]
  · have hxy : (x ^^^ y) % 2 = 1 := by omega
    rw [if_pos hxy, if_pos hx, if_neg (by omega), hsh, Nat.xor_assoc,
      Nat.xor_comm (y >>> 1) P32, ← Nat.xor_assoc]
  · have hxy : (x ^^^ y) % 2 = 0 := by omega
    rw [if_neg (by omega), if_pos hx, if_pos hy, hsh, xor_pp_cancel]

/-- The explicit inverse of `bitstep` on 32-bit states. -/
def bitstepInv (r : Nat) : Nat :=
  if r.testBit 31 then 2 * (r ^^^ P32) + 1 else 2 * r

theorem bitstep_lt {s : Nat} (hs : s < 2 ^ 32) : bitstep s < 2 ^ 32 := by
  have hdiv : s >>> 1 < 2 ^ 32 := by
    rw [Nat.shiftRight_eq_div_pow]
    omega
  have hP : P32 < 2 ^ 32 := by decide
  unfold bitstep
  split
  · exact Nat.xor_lt_two_pow hdiv hP
  · exact hdiv

theorem bitstepInv_bitstep {s : Nat} (hs : s < 2 ^ 32) :
    bitstepInv (bitstep s) = s := by
  have hsh : s >>> 1 = s / 2 := by
    simp [Nat.shiftRight_eq_div_pow]
  have hdiv : s / 2 < 2 ^ 31 := by omega
  have htb : (s / 2).testBit 31 = false := Nat.testBit_lt_two_pow hdiv
  have hP : P32.testBit 31 = true := by decide
  rcases Nat.mod_two_eq_zero_or_one s with hpar | hpar
  · have hb : bitstep s = s / 2 := by simp [bitstep, hpar, hsh]
    rw [hb, bitstepInv, htb]
    simp only [Bool.false_eq_true, if_false]
    omega
  · have hb : bitstep s = (s / 2) ^^^ P32 := by simp [bitstep, hpar, hsh]
    have htb2 : ((s / 2) ^^^ P32).testBit 31 = true := by
      rw [Nat.testBit_xor, htb, hP]
      rfl
    rw [hb, bitstepInv, htb2]
    simp only [if_true]
    rw [Nat.xor_cancel_right]
    omega

theorem bitstep_zero : bitstep 0 = 0 := by decide

theorem bitstep_good {d : Nat} (h0 : d ≠ 0) (hd : d < 2 ^ 32) :
    bitstep d ≠ 0 ∧ bitstep d < 2 ^ 32 := by
  refine ⟨?_, bitstep_lt hd⟩
  intro hz
  apply h0
  have h1 : bitstepInv (bitstep d) = d := bitstepInv_bitstep hd
  rw [hz] at h1
  rw [bitstepInv] at h1
  simp at h1
  omega

theorem iterate_bitstep_good {d : Nat} (n : Nat) (h0 : d ≠ 0) (hd : d < 2 ^ 32) :
    bitstep^[n] d ≠ 0 ∧ bitstep^[n] d < 2 ^ 32 := by
  induction n with
  | zero => exact ⟨h0, hd⟩
  | succ n ih =>
    rw [Function.iterate_succ_apply']
    exact bitstep_good ih.1 ih.2

theorem iterate_bitstep_xor (n x y : Nat) :
    bitstep^[n] (x ^^^ y) = bitstep^[n] x ^^^ bitstep^[n] y := by
  induction n generalizing x y with
  | zero => rfl
  | succ n ih =>
    rw [Function.iterate_succ_apply', Function.iterate_succ_apply',
      Function.iterate_succ_apply', ih, bitstep_xor]

theorem byteStep_xor_right (s b d : Nat) :
    byteStep (s ^^^ d) b = byteStep s b ^^^ bitstep^[8] d := by
  unfold byteStep
  rw [Nat.xor_comm s d, Nat.xor_assoc, Nat.xor_comm d (s ^^^ b),
    iterate_bitstep_xor]

theorem crcFold_xor_ne (r : List Nat) :
    ∀ x d : Nat, d ≠ 0 → d < 2 ^ 32 → crcFold (x ^^^ d) r ≠ crcFold x r := by
  induction r with
  | nil =>
    intro x d h0 _
    simp only [crcFold, List.foldl_nil]
    intro h
    apply h0
    have := congrArg (fun z => x ^^^ z) h
    simp only [Nat.xor_cancel_left] at this
    rw [this, Nat.xor_self]
  | cons c r ih =>
    intro x d h0 hd
    simp only [crcFold, List.foldl_cons]
    rw [byteStep_xor_right]
    have hg := iterate_bitstep_good 8 h0 hd
    exact ih (byteStep x c) (bitstep^[8] d) hg.1 hg.2

theorem crc_single_byte {x y : Nat} (pre suf : List Nat)
    (hx : x < 2 ^ 32) (hy : y < 2 ^ 32) (hxy : x ≠ y) :
    crc32 (pre ++ x :: suf) ≠ crc32 (pre ++ y :: suf) := by
  have he0 : x ^^^ y ≠ 0 := by
    intro h
    apply hxy
    have := congrArg (fun z => x ^^^ z) h
    simp only [Nat.xor_zero] at this
    rw [← this, Nat.xor_cancel_left]
  have heb : x ^^^ y < 2 ^ 32 := Nat.xor_lt_two_pow hx hy
  have hfld : ∀ z : Nat, crcFold crcInitReg (pre ++ z :: suf) =
      crcFold (byteStep (crcFold crcInitReg pre) z) suf := by
    intro z
    simp [crcFold, List.foldl_append]
  intro h
  unfold crc32 hFinish at h
  have h2 : crcFold crcInitReg (pre ++ x :: suf) =
      crcFold crcInitReg (pre ++ y :: suf) := by
    have := congrArg (fun z => z ^^^ 0xFFFFFFFF) h
    simpa [Nat.xor_cancel_right] using this
  rw [hfld x, hfld y] at h2
  set s1 := crcFold crcInitReg pre with hs1
  have hby : byteStep s1 y = byteStep s1 x ^^^ bitstep^[8] (x ^^^ y) := by
    unfold byteStep
    rw [← iterate_bitstep_xor, Nat.xor_assoc, Nat.xor_cancel_left]
  rw [hby] at h2
  have hg := iterate_bitstep_good 8 he0 heb
  exact crcFold_xor_ne suf (byteStep s1 x) (bitstep^[8] (x ^^^ y)) hg.1 hg.2 h2.symm

theorem byteStep_lt {s b : Nat} (hs : s < 2 ^ 32) (hb : b < 2 ^ 32) :
    byteStep s b < 2 ^ 32 := by
  unfold byteStep
  have h0 : s ^^^ b < 2 ^ 32 := Nat.xor_lt_two_pow hs hb
  have : ∀ n z, z < 2 ^ 32 → bitstep^[n] z < 2 ^ 32 := by
    intro n
    induction n with
    | zero => intro z hz; exact hz
    | succ n ih =>
      intro z hz
      rw [Function.iterate_succ_apply']
      exact bitstep_lt (ih z hz)
  exact this 8 _ h0

theorem crcFold_lt {s : Nat} (l : List Nat) (hs : s < 2 ^ 32)
    (hl : ∀ b ∈ l, b < 256) : crcFold s l < 2 ^ 32 := by
  induction l generalizing s with
  | nil => exact hs
  | cons c r ih =>
    simp only [crcFold, List.foldl_cons]
    have hc : c < 2 ^ 32 := by
      have := hl c (by simp)
      omega
    exact ih (byteStep_lt hs hc) (fun b hb => hl b (by simp [hb]))

theorem crc32_lt (l : List Nat) (hl : ∀ b ∈ l, b < 256) : crc32 l < 2 ^ 32 := by
  unfold crc32 hFinish
  have h1 : crcFold crcInitReg l < 2 ^ 32 :=
    crcFold_lt l (by unfold crcInitReg; omega) hl
  exact Nat.xor_lt_two_pow h1 (by decide)

/-! Normal forms of the checksum-protected encoders, and the central
corruption-detection lemma. -/

theorem crcFold_append (s : Nat) (l r : List Nat) :
    crcFold (crcFold s l) r = crcFold s (l ++ r) := by
  simp [crcFold, List.foldl_append]

theorem wcEncode_eq {α : Type} (e : α → List Nat) (a : α) :
    wcEncode e a = e a ++ beBytes 8 (crc32 (e a)) := by
  simp [wcEncode, ckWrite, ckWriteChecksum, ckInit, crc32]

theorem Segment.encode_eq (g : Segment) :
    g.encode = beBytes 8 g.offset ++ beBytes 8 g.size ++
      beBytes 8 (crc32 (beBytes 8 g.offset ++ beBytes 8 g.size)) := by
  simp [Segment.encode, ckWrite, ckWriteChecksum, ckInit, crc32, crcFold_append]

theorem wcEncode_length {α : Type} (e : α → List Nat) (a : α) :
    (wcEncode e a).length = (e a).length + 8 := by
  rw [wcEncode_eq]
  simp [beBytes_length]

/-- Corrupting any single byte of `payload ++ trailer` (where the trailer is
the 8-byte big-endian CRC-32 of the payload) makes the recomputed digest of
the first `payload.length` bytes disagree with the big-endian value of the
last 8 bytes. -/
theorem protect_corrupt (p : List Nat) (hp : ∀ b ∈ p, b < 256) (i b' : Nat)
    (hb : b' < 256) (hi : i < p.length + 8)
    (hne : (p ++ beBytes 8 (crc32 p)).getD i 0 ≠ b') :
    crc32 (((p ++ beBytes 8 (crc32 p)).set i b').take p.length) ≠
      beVal (((p ++ beBytes 8 (crc32 p)).set i b').drop p.length) := by
  set t := beBytes 8 (crc32 p) with ht
  have htlen : t.length = 8 := beBytes_length 8 _
  have htlt : ∀ b ∈ t, b < 256 := beBytes_lt 8 _
  have hcrc : crc32 p < 2 ^ 32 := crc32_lt p hp
  have hbev : beVal t = crc32 p := by
    rw [ht]
    exact beVal_beBytes_of_lt (lt_of_lt_of_le hcrc (by norm_num))
  by_cases hcase : i < p.length
  · -- corruption inside the payload: the recomputed digest moves
    have hset : (p ++ t).set i b' = p.set i b' ++ t := by
      rw [List.set_append, if_pos hcase]
    rw [hset]
    have hlen : (p.set i b').length = p.length := List.length_set p i b'
    rw [List.take_left' hlen, List.drop_left' hlen, hbev]
    have hsplit : p.set i b' = p.take i ++ b' :: p.drop (i + 1) := by
      rw [List.set_eq_take_append_cons_drop, if_pos hcase]
    have hporig : p = p.take i ++ p[i] :: p.drop (i + 1) := by
      conv_lhs => rw [← List.take_append_drop i p, List.drop_eq_getElem_cons hcase]
    rw [hsplit]
    conv_rhs => rw [hporig]
    have hpi : p[i] < 256 := hp _ (List.getElem_mem hcase)
    have hne2 : b' ≠ p[i] := by
      intro h
      apply hne
      rw [List.getD_append _ _ _ _ hcase, List.getD_eq_getElem _ _ hcase, h]
    exact crc_single_byte (p.take i) (p.drop (i + 1))
      (lt_of_lt_of_le hb (by norm_num)) (lt_of_lt_of_le hpi (by norm_num)) hne2
  · -- corruption inside the trailer: the stored digest moves
    have hge : p.length ≤ i := Nat.le_of_not_lt hcase
    have hset : (p ++ t).set i b' = p ++ t.set (i - p.length) b' := by
      rw [List.set_append, if_neg hcase]
    rw [hset]
    rw [List.take_left' rfl, List.drop_left' rfl]
    set j := i - p.length with hj
    have hjlt : j < t.length := by omega
    have hsplit : t.set j b' = t.take j ++ b' :: t.drop (j + 1) := by
      rw [List.set_eq_take_append_cons_drop, if_pos hjlt]
    have htorig : t = t.take j ++ t[j] :: t.drop (j + 1) := by
      conv_lhs => rw [← List.take_append_drop j t, List.drop_eq_getElem_cons hjlt]
    have hne2 : b' ≠ t[j] := by
      intro h
      apply hne
      rw [List.getD_append_right _ _ _ _ hge, List.getD_eq_getElem _ _ hjlt, h]
    intro h
    have hv : beVal t = beVal (t.set j b') := by rw [hbev, h]
    rw [hsplit] at hv
    conv_lhs at hv => rw [htorig]
    exact beVal_single_ne (t.take j) (t.drop (j + 1)) (fun hh => hne2 hh.symm) hv

/-! Evaluation lemmas for the checksum-protected decoders. -/

theorem readN_prefix' {l : List Nat} {n : Nat} (rest : List Nat)
    (h : l.length = n) : readN n (l ++ rest) = .ok (l, n) := by
  subst h
  exact readN_prefix l rest

theorem Segment.decode_ok {s : List Nat} (h : 24 ≤ s.length)
    (heq : crc32 (s.take 16) = beVal ((s.drop 16).take 8)) :
    Segment.decode s = .ok (⟨beVal (s.take 8), beVal ((s.drop 8).take 8)⟩, 24) := by
  have h1 : readN 8 s = .ok (s.take 8, 8) := readN_of_le (by omega)
  have h2 : readN 8 (s.drop 8) = .ok ((s.drop 8).take 8, 8) :=
    readN_of_le (by simp; omega)
  have h3 : readN 8 (s.drop 16) = .ok ((s.drop 16).take 8, 8) :=
    readN_of_le (by simp; omega)
  have h16 : s.take 8 ++ (s.drop 8).take 8 = s.take 16 := by
    have := (List.take_add s 8 8).symm
    norm_num at this
    exact this
  unfold Segment.decode verifyChecksum
  simp only [h1, h2, h3, h16, heq]
  simp

theorem Segment.decode_mismatch {s : List Nat} (h : 24 ≤ s.length)
    (hne : crc32 (s.take 16) ≠ beVal ((s.drop 16).take 8)) :
    isErr (Segment.decode s) = true := by
  have h1 : readN 8 s = .ok (s.take 8, 8) := readN_of_le (by omega)
  have h2 : readN 8 (s.drop 8) = .ok ((s.drop 8).take 8, 8) :=
    readN_of_le (by simp; omega)
  have h3 : readN 8 (s.drop 16) = .ok ((s.drop 16).take 8, 8) :=
    readN_of_le (by simp; omega)
  have h16 : s.take 8 ++ (s.drop 8).take 8 = s.take 16 := by
    have := (List.take_add s 8 8).symm
    norm_num at this
    exact this
  unfold Segment.decode verifyChecksum
  simp only [h1, h2, h3, h16]
  simp [hne, isErr]

theorem wcDecode_ok {α : Type} {dA : DecM α} {s : List Nat} {a : α} {n : Nat}
    (hdA : dA s = .ok (a, n)) (h8 : 8 ≤ (s.drop n).length)
    (heq : crc32 (s.take n) = beVal ((s.drop n).take 8)) :
    wcDecode dA s = .ok (⟨a⟩, n + 8) := by
  unfold wcDecode verifyChecksum
  simp only [hdA, readN_of_le h8, heq]
  simp

theorem wcDecode_mismatch {α : Type} {dA : DecM α} {s : List Nat} {a : α}
    {n : Nat} (hdA : dA s = .ok (a, n)) (h8 : 8 ≤ (s.drop n).length)
    (hne : crc32 (s.take n) ≠ beVal ((s.drop n).take 8)) :
    isErr (wcDecode dA s) = true := by
  unfold wcDecode verifyChecksum
  simp only [hdA, readN_of_le h8]
  simp [hne, isErr]

theorem u8_decode_eval {s : List Nat} (h : 1 ≤ s.length) :
    Ty.decode .tU8 s = .ok (beVal (s.take 1), 1) := by
  simp [Ty.decode, readN_of_le h]

theorem u32_decode_eval {s : List Nat} (h : 4 ≤ s.length) :
    Ty.decode .tU32 s = .ok (beVal (s.take 4), 4) := by
  simp [Ty.decode, readN_of_le h]

theorem u64_decode_eval {s : List Nat} (h : 8 ≤ s.length) :
    Ty.decode .tU64 s = .ok (beVal (s.take 8), 8) := by
  simp [Ty.decode, readN_of_le h]

/-! Encoders produce byte values, and fixed-size lengths. -/

theorem encode_bytes_lt : ∀ (t : Ty) (v : t.denote), t.wf v →
    ∀ b ∈ t.encode v, b < 256 := by
  intro t
  induction t with
  | tU8 => intro v _; exact beBytes_lt 1 v
  | tU32 => intro v _; exact beBytes_lt 4 v
  | tU64 => intro v _; exact beBytes_lt 8 v
  | tStr =>
    intro v hv b hb
    simp only [Ty.encode, List.mem_append] at hb
    rcases hb with hb | hb
    · exact beBytes_lt 4 _ b hb
    · exact hv.2.1 b hb
  | tVec =>
    intro v hv b hb
    simp only [Ty.encode, List.mem_append] at hb
    rcases hb with hb | hb
    · exact beBytes_lt 4 _ b hb
    · exact hv.1 b hb
  | tUnit => intro v _ b hb; simp [Ty.encode] at hb
  | tOpt t ih =>
    intro v hv b hb
    match v with
    | none =>
      simp only [Ty.encode] at hb
      exact beBytes_lt 1 0 b hb
    | some x =>
      simp only [Ty.encode, List.mem_append] at hb
      rcases hb with hb | hb
      · exact beBytes_lt 1 1 b hb
      · exact ih x (hv x rfl) b hb
  | tPair t1 t2 ih1 ih2 =>
    intro v hv b hb
    simp only [Ty.encode, List.mem_append] at hb
    rcases hb with hb | hb
    · exact ih1 v.1 hv.1 b hb
    · exact ih2 v.2 hv.2 b hb
  | tSeg =>
    intro g _ b hb
    simp only [Ty.encode] at hb
    rw [Segment.encode_eq] at hb
    simp only [List.mem_append] at hb
    rcases hb with (hb | hb) | hb
    · exact beBytes_lt 8 _ b hb
    · exact beBytes_lt 8 _ b hb
    · exact beBytes_lt 8 _ b hb
  | tWC t ih =>
    intro v hv b hb
    simp only [Ty.encode] at hb
    rw [wcEncode_eq] at hb
    simp only [List.mem_append] at hb
    rcases hb with hb | hb
    · exact ih v.data hv b hb
    · exact beBytes_lt 8 _ b hb

theorem encode_length_fixed : ∀ (t : Ty) (v : t.denote), t.noNone v →
    ∀ k : Nat, t.encodedSize = some k → (t.encode v).length = k := by
  intro t
  induction t with
  | tU8 =>
    intro v _ k hk
    simp only [Ty.encodedSize, Option.some_inj] at hk
    simp [Ty.encode, beBytes_length, ← hk]
  | tU32 =>
    intro v _ k hk
    simp only [Ty.encodedSize, Option.some_inj] at hk
    simp [Ty.encode, beBytes_length, ← hk]
  | tU64 =>
    intro v _ k hk
    simp only [Ty.encodedSize, Option.some_inj] at hk
    simp [Ty.encode, beBytes_length, ← hk]
  | tStr => intro v _ k hk; simp [Ty.encodedSize] at hk
  | tVec => intro v _ k hk; simp [Ty.encodedSize] at hk
  | tUnit =>
    intro v _ k hk
    simp only [Ty.encodedSize, Option.some_inj] at hk
    simp [Ty.encode, ← hk]
  | tOpt t ih =>
    intro v hn k hk
    simp only [Ty.encodedSize, Option.map_eq_some'] at hk
    obtain ⟨k', hk', hkk⟩ := hk
    match v with
    | none => exact absurd hn (by simp [Ty.noNone])
    | some x =>
      have hx : (t.encode x).length = k' := ih x hn k' hk'
      simp [Ty.encode, beBytes_length, hx, ← hkk]
  | tPair t1 t2 ih1 ih2 => intro v _ k hk; simp [Ty.encodedSize] at hk
  | tSeg =>
    intro g _ k hk
    simp only [Ty.encodedSize, Option.some_inj] at hk
    simp only [Ty.encode]
    rw [Segment.encode_eq]
    simp [beBytes_length, ← hk]
  | tWC t ih =>
    intro v hn k hk
    simp only [Ty.encodedSize, Option.map_eq_some'] at hk
    obtain ⟨k', hk', hkk⟩ := hk
    have hx : (t.encode v.data).length = k' := ih v.data hn k' hk'
    simp [Ty.encode, wcEncode_length, hx, ← hkk]

/-- Master round-trip lemma: decoding an encoded well-formed value from a
stream with arbitrary extra bytes appended succeeds, returns the value, and
consumes exactly the encoded length. -/
theorem decode_encode_exact : ∀ (t : Ty) (v : t.denote), t.wf v →
    ∀ extra : List Nat,
      t.decode (t.encode v ++ extra) = .ok (v, (t.encode v).length) := by
  intro t
  induction t with
  | tU8 =>
    intro v hv extra
    simp only [Ty.encode]
    rw [u8_decode_eval (by simp [beBytes_length])]
    rw [List.take_left' (beBytes_length 1 v)]
    rw [beVal_beBytes_of_lt (show v < 256 ^ 1 by simpa using hv)]
    simp [beBytes_length]
  | tU32 =>
    intro v hv extra
    simp only [Ty.encode]
    rw [u32_decode_eval (by simp [beBytes_length])]
    rw [List.take_left' (beBytes_length 4 v)]
    rw [beVal_beBytes_of_lt (show v < 256 ^ 4 by norm_num; exact hv)]
    simp [beBytes_length]
  | tU64 =>
    intro v hv extra
    simp only [Ty.encode]
    rw [u64_decode_eval (by simp [beBytes_length])]
    rw [List.take_left' (beBytes_length 8 v)]
    rw [beVal_beBytes_of_lt (show v < 256 ^ 8 by norm_num; exact hv)]
    simp [beBytes_length]
  | tStr =>
    intro v hv extra
    obtain ⟨hutf, _, hlen⟩ := hv
    simp only [Ty.encode, List.append_assoc]
    have e1 : readN 4 (beBytes 4 v.length ++ (v ++ extra)) =
        .ok (beBytes 4 v.length, 4) := readN_prefix' _ (beBytes_length 4 v.length)
    have e2 : (beBytes 4 v.length ++ (v ++ extra)).drop 4 = v ++ extra :=
      List.drop_left' (beBytes_length 4 v.length)
    have e3 : beVal (beBytes 4 v.length) = v.length :=
      beVal_beBytes_of_lt (show v.length < 256 ^ 4 by norm_num; exact hlen)
    have e4 : readN v.length (v ++ extra) = .ok (v, v.length) :=
      readN_prefix' extra rfl
    simp only [Ty.decode, e1, e2, e3, e4, hutf]
    simp [beBytes_length]
  | tVec =>
    intro v hv extra
    obtain ⟨_, hlen⟩ := hv
    simp only [Ty.encode, List.append_assoc]
    have e1 : readN 4 (beBytes 4 v.length ++ (v ++ extra)) =
        .ok (beBytes 4 v.length, 4) := readN_prefix' _ (beBytes_length 4 v.length)
    have e2 : (beBytes 4 v.length ++ (v ++ extra)).drop 4 = v ++ extra :=
      List.drop_left' (beBytes_length 4 v.length)
    have e3 : beVal (beBytes 4 v.length) = v.length :=
      beVal_beBytes_of_lt (show v.length < 256 ^ 4 by norm_num; exact hlen)
    have e4 : readN v.length (v ++ extra) = .ok (v, v.length) :=
      readN_prefix' extra rfl
    simp only [Ty.decode, e1, e2, e3, e4]
    simp [beBytes_length]
  | tUnit =>
    intro v _ extra
    simp [Ty.decode, Ty.encode]
  | tOpt t ih =>
    intro v hv extra
    match v with
    | none =>
      have h0 : beBytes 1 0 = [0] := rfl
      simp only [Ty.encode, h0]
      have e1 : readN 1 (([0] : List Nat) ++ extra) = .ok ([0], 1) :=
        readN_prefix' _ rfl
      have e2 : beVal [0] = 0 := rfl
      simp only [Ty.decode, e1, e2]
      simp
    | some x =>
      have hx := hv x rfl
      have h1 : beBytes 1 1 = [1] := rfl
      simp only [Ty.encode, h1, List.append_assoc]
      have e1 : readN 1 (([1] : List Nat) ++ (t.encode x ++ extra)) =
          .ok ([1], 1) := readN_prefix' _ rfl
      have e2 : beVal [1] = 1 := rfl
      have e3 : (([1] : List Nat) ++ (t.encode x ++ extra)).drop 1 =
          t.encode x ++ extra := List.drop_left' rfl
      have e4 := ih x hx extra
      simp only [Ty.decode, e1, e2, e3, e4]
      simp [Nat.add_comm]
  | tPair t1 t2 ih1 ih2 =>
    intro v hv extra
    obtain ⟨h1, h2⟩ := hv
    simp only [Ty.encode, List.append_assoc]
    have e1 := ih1 v.1 h1 (t2.encode v.2 ++ extra)
    have e2 : (t1.encode v.1 ++ (t2.encode v.2 ++ extra)).drop
        (t1.encode v.1).length = t2.encode v.2 ++ extra := List.drop_left' rfl
    have e3 := ih2 v.2 h2 extra
    simp only [Ty.decode, e1, e2, e3]
    simp
  | tSeg =>
    intro g hv extra
    obtain ⟨ho, hs⟩ := hv
    have hA : (beBytes 8 g.offset).length = 8 := beBytes_length 8 _
    have hB : (beBytes 8 g.size).length = 8 := beBytes_length 8 _
    have hAB : (beBytes 8 g.offset ++ beBytes 8 g.size).length = 16 := by
      simp [beBytes_length]
    have hABlt : ∀ b ∈ beBytes 8 g.offset ++ beBytes 8 g.size, b < 256 := by
      intro b hb
      rcases List.mem_append.1 hb with hb | hb
      · exact beBytes_lt 8 _ b hb
      · exact beBytes_lt 8 _ b hb
    set C := beBytes 8 (crc32 (beBytes 8 g.offset ++ beBytes 8 g.size)) with hC
    have hCl : C.length = 8 := beBytes_length 8 _
    have hs' : Ty.encode .tSeg g ++ extra =
        (beBytes 8 g.offset ++ beBytes 8 g.size) ++ (C ++ extra) := by
      simp only [Ty.encode]
      rw [Segment.encode_eq]
      simp [List.append_assoc]
    have h24 : 24 ≤ ((beBytes 8 g.offset ++ beBytes 8 g.size) ++ (C ++ extra)).length := by
      simp [beBytes_length, hCl]
      omega
    have htake16 : ((beBytes 8 g.offset ++ beBytes 8 g.size) ++ (C ++ extra)).take 16 =
        beBytes 8 g.offset ++ beBytes 8 g.size := List.take_left' hAB
    have hdrop16 : ((beBytes 8 g.offset ++ beBytes 8 g.size) ++ (C ++ extra)).drop 16 =
        C ++ extra := List.drop_left' hAB
    have hbevC : beVal C = crc32 (beBytes 8 g.offset ++ beBytes 8 g.size) := by
      rw [hC]
      exact beVal_beBytes_of_lt
        (lt_of_lt_of_le (crc32_lt _ hABlt) (by norm_num))
    have hcrc : crc32 (((beBytes 8 g.offset ++ beBytes 8 g.size) ++ (C ++ extra)).take 16) =
        beVal ((((beBytes 8 g.offset ++ beBytes 8 g.size) ++ (C ++ extra)).drop 16).take 8) := by
      rw [htake16, hdrop16, List.take_left' hCl, hbevC]
    have htake8 : ((beBytes 8 g.offset ++ beBytes 8 g.size) ++ (C ++ extra)).take 8 =
        beBytes 8 g.offset := by
      rw [List.append_assoc]
      exact List.take_left' hA
    have hdrop8 : (((beBytes 8 g.offset ++ beBytes 8 g.size) ++ (C ++ extra)).drop 8).take 8 =
        beBytes 8 g.size := by
      rw [List.append_assoc, List.drop_left' hA]
      exact List.take_left' hB
    simp only [Ty.decode]
    rw [hs', Segment.decode_ok h24 hcrc, htake8, hdrop8]
    rw [beVal_beBytes_of_lt (show g.offset < 256 ^ 8 by norm_num; exact ho)]
    rw [beVal_beBytes_of_lt (show g.size < 256 ^ 8 by norm_num; exact hs)]
    simp only [Ty.encode]
    rw [Segment.encode_eq]
    simp [beBytes_length]
  | tWC t ih =>
    intro v hv extra
    simp only [Ty.encode, Ty.decode]
    have hEx : wcEncode t.encode v.data ++ extra =
        t.encode v.data ++ (beBytes 8 (crc32 (t.encode v.data)) ++ extra) := by
      rw [wcEncode_eq]
      simp [List.append_assoc]
    rw [hEx]
    have e1 : t.decode (t.encode v.data ++
        (beBytes 8 (crc32 (t.encode v.data)) ++ extra)) =
        .ok (v.data, (t.encode v.data).length) := ih v.data hv _
    have hdrop : (t.encode v.data ++
        (beBytes 8 (crc32 (t.encode v.data)) ++ extra)).drop
        (t.encode v.data).length =
        beBytes 8 (crc32 (t.encode v.data)) ++ extra := List.drop_left' rfl
    have h8 : 8 ≤ ((t.encode v.data ++
        (beBytes 8 (crc32 (t.encode v.data)) ++ extra)).drop
        (t.encode v.data).length).length := by
      rw [hdrop]
      simp [beBytes_length]
    have heq : crc32 ((t.encode v.data ++
        (beBytes 8 (crc32 (t.encode v.data)) ++ extra)).take
        (t.encode v.data).length) =
        beVal (((t.encode v.data ++
        (beBytes 8 (crc32 (t.encode v.data)) ++ extra)).drop
        (t.encode v.data).length).take 8) := by
      rw [List.take_left' rfl, hdrop, List.take_left' (beBytes_length 8 _)]
      exact (beVal_beBytes_of_lt (lt_of_lt_of_le
        (crc32_lt _ (encode_bytes_lt t v.data hv)) (by norm_num))).symm
    rw [wcDecode_ok e1 h8 heq, wcEncode_length]

/-! Corruption detection for the fixed-layout checksum-protected codecs. -/

theorem take_all_of_length_eq {l : List Nat} {n : Nat} (h : l.length = n) :
    l.take n = l := by
  rw [← h, List.take_length]

theorem segment_corrupt_detected (off sz i b' : Nat) (hi : i < 24)
    (hb : b' < 256)
    (hne : (Segment.encode ⟨off, sz⟩).getD i 0 ≠ b') :
    isErr (Segment.decode ((Segment.encode ⟨off, sz⟩).set i b')) = true := by
  have hplen : (beBytes 8 off ++ beBytes 8 sz).length = 16 := by
    simp [beBytes_length]
  have hplt : ∀ b ∈ beBytes 8 off ++ beBytes 8 sz, b < 256 := by
    intro b hb2
    rcases List.mem_append.1 hb2 with hb2 | hb2
    · exact beBytes_lt 8 _ b hb2
    · exact beBytes_lt 8 _ b hb2
  have henc : Segment.encode ⟨off, sz⟩ =
      (beBytes 8 off ++ beBytes 8 sz) ++
        beBytes 8 (crc32 (beBytes 8 off ++ beBytes 8 sz)) := by
    rw [Segment.encode_eq]
  rw [henc] at hne ⊢
  have h1 := protect_corrupt (beBytes 8 off ++ beBytes 8 sz) hplt i b' hb
    (by omega) hne
  rw [hplen] at h1
  have hclen : (((beBytes 8 off ++ beBytes 8 sz) ++
      beBytes 8 (crc32 (beBytes 8 off ++ beBytes 8 sz))).set i b').length = 24 := by
    simp [List.length_set, beBytes_length]
  apply Segment.decode_mismatch (by omega)
  have hdl : ((((beBytes 8 off ++ beBytes 8 sz) ++
      beBytes 8 (crc32 (beBytes 8 off ++ beBytes 8 sz))).set i b').drop 16).length = 8 := by
    rw [List.length_drop, hclen]
  rw [take_all_of_length_eq hdl]
  exact h1

theorem wc_fixed_corrupt {α : Type} {dA : DecM α} {f : List Nat → α} {k : Nat}
    (hdA : ∀ s : List Nat, k ≤ s.length → dA s = .ok (f (s.take k), k))
    (p : List Nat) (hplen : p.length = k) (hplt : ∀ b ∈ p, b < 256)
    (i b' : Nat) (hi : i < k + 8) (hb : b' < 256)
    (hne : (p ++ beBytes 8 (crc32 p)).getD i 0 ≠ b') :
    isErr (wcDecode dA ((p ++ beBytes 8 (crc32 p)).set i b')) = true := by
  have hclen : ((p ++ beBytes 8 (crc32 p)).set i b').length = k + 8 := by
    simp [List.length_set, beBytes_length, hplen]
  have hdc : dA ((p ++ beBytes 8 (crc32 p)).set i b') =
      .ok (f (((p ++ beBytes 8 (crc32 p)).set i b').take k), k) :=
    hdA _ (by omega)
  have hdrop : 8 ≤ (((p ++ beBytes 8 (crc32 p)).set i b').drop k).length := by
    rw [List.length_drop, hclen]
    omega
  apply wcDecode_mismatch hdc hdrop
  have h1 := protect_corrupt p hplt i b' hb (by omega) hne
  rw [hplen] at h1
  have hdl : (((p ++ beBytes 8 (crc32 p)).set i b').drop k).length = 8 := by
    rw [List.length_drop, hclen]
    omega
  rw [take_all_of_length_eq hdl]
  exact h1

/-! The claims. -/

set_option maxRecDepth 8000

/-- C2: under the CRC32 configuration, `Segment::new(5, 10)` encodes to
exactly the 24-byte sequence
`[0,0,0,0,0,0,0,5, 0,0,0,0,0,0,0,10, 0,0,0,0,70,249,231,4]` (returning 24),
and decoding exactly that byte sequence succeeds and returns a Segment equal
to `Segment::new(5, 10)` (consuming 24 bytes). -/
theorem claim_C2 :
    Segment.encode ⟨5, 10⟩ =
      [0, 0, 0, 0, 0, 0, 0, 5, 0, 0, 0, 0, 0, 0, 0, 10,
       0, 0, 0, 0, 70, 249, 231, 4] ∧
    (Segment.encode ⟨5, 10⟩).length = 24 ∧
    Segment.decode
      [0, 0, 0, 0, 0, 0, 0, 5, 0, 0, 0, 0, 0, 0, 0, 10,
       0, 0, 0, 0, 70, 249, 231, 4] = .ok (⟨5, 10⟩, 24) :=
  ⟨rfl, rfl, rfl⟩

/-- C3: for every value of an encodable type, `WithChecksum::encode` writes
the payload's encoding followed by the 8-byte big-endian digest of those
bytes, producing the payload's encoded length plus 8 bytes; in particular
`WithChecksum::<u64>::new(5)` encodes to
`[0,0,0,0,0,0,0,5, 0,0,0,0,21,72,43,230]` under CRC32. -/
theorem claim_C3 :
    (∀ (α : Type) (e : α → List Nat) (a : α),
      wcEncode e a = e a ++ beBytes 8 (crc32 (e a)) ∧
      (wcEncode e a).length = (e a).length + 8) ∧
    Ty.encode (.tWC .tU64) ⟨5⟩ =
      [0, 0, 0, 0, 0, 0, 0, 5, 0, 0, 0, 0, 21, 72, 43, 230] := by
  constructor
  · intro α e a
    exact ⟨wcEncode_eq e a, wcEncode_length e a⟩
  · rfl

/-- C4 counterexample: `Option<u64>` implements `FixedSize` with
`encoded_size() = 9`, yet encoding the well-formed value `None` produces only
1 byte, so "encoding v produces exactly `T::encoded_size()` bytes whenever
`T` is fixed-size" is false as stated. -/
theorem claim_C4_counterexample :
    Ty.encodedSize (.tOpt .tU64) = some 9 ∧
    Ty.wf (.tOpt .tU64) (none : Option Nat) ∧
    (Ty.encode (.tOpt .tU64) (none : Option Nat)).length = 1 ∧
    (1 : Nat) ≠ 9 := by
  refine ⟨rfl, ?_, rfl, by decide⟩
  intro x hx
  exact absurd hx (by simp)

/-- C4 (amended): for every supported value type and every well-formed value
(with `String`/`Vec<u8>` values restricted to length below 2^32, since the
u32 length prefix silently truncates longer values), decoding the encoding
yields the original value; and when the type is fixed-size, the encoding has
exactly `encoded_size()` bytes provided the value contains no `None`
(encoding `None` of `Option<S>` produces 1 byte, not
`1 + S::encoded_size()`). -/
theorem claim_C4 (t : Ty) (v : t.denote) (hv : t.wf v) :
    t.decode (t.encode v) = .ok (v, (t.encode v).length) ∧
    (∀ k : Nat, t.encodedSize = some k → t.noNone v →
      (t.encode v).length = k) := by
  constructor
  · have h := decode_encode_exact t v hv []
    simpa using h
  · intro k hk hn
    exact encode_length_fixed t v hn k hk

/-- Decoding a `Vec<u8>` whose length is exactly 2^32: the u32 length prefix
wraps to 0, so only the 4 prefix bytes are consumed and the empty vector is
returned. -/
theorem vec_trunc_decode (v : List Nat) (hv : v.length = 2 ^ 32)
    (extra : List Nat) :
    Ty.decode .tVec (Ty.encode .tVec v ++ extra) = .ok ([], 4) := by
  have hbe : beBytes 4 (2 ^ 32) = [0, 0, 0, 0] := rfl
  have henc : Ty.encode .tVec v = [0, 0, 0, 0] ++ v := by
    simp only [Ty.encode, hv, hbe]
  rw [henc, List.append_assoc]
  have e1 : readN 4 (([0, 0, 0, 0] : List Nat) ++ (v ++ extra)) =
      .ok ([0, 0, 0, 0], 4) := readN_prefix' _ rfl
  have e2 : (([0, 0, 0, 0] : List Nat) ++ (v ++ extra)).drop 4 = v ++ extra :=
    List.drop_left' rfl
  have e3 : beVal [0, 0, 0, 0] = 0 := rfl
  have e4 : readN 0 (v ++ extra) = .ok ([], 0) := by
    rw [readN_of_le (Nat.zero_le _), List.take_zero]
  simp only [Ty.decode, e1, e2, e3, e4]

/-- C5 counterexample: for the `Vec<u8>` value of length 2^32, the u32
length prefix truncates to 0, so decoding `encode(v) ++ [1]` succeeds but
returns the empty vector after consuming only 4 bytes, not
`len(encode(v))`. -/
theorem claim_C5_counterexample :
    Ty.decode .tVec (Ty.encode .tVec (List.replicate (2 ^ 32) 0) ++ [1]) =
      .ok (([] : List Nat), 4) ∧
    (4 : Nat) ≠ (Ty.encode .tVec (List.replicate (2 ^ 32) 0)).length := by
  constructor
  · exact vec_trunc_decode _ (List.length_replicate _ _) [1]
  · have hlen : (List.replicate (2 ^ 32) (0 : Nat)).length = 2 ^ 32 :=
      List.length_replicate _ _
    have hbe : beBytes 4 (2 ^ 32) = [0, 0, 0, 0] := rfl
    have henc : Ty.encode .tVec (List.replicate (2 ^ 32) (0 : Nat)) =
        [0, 0, 0, 0] ++ List.replicate (2 ^ 32) 0 := by
      simp only [Ty.encode, hlen, hbe]
    rw [henc, List.length_append, hlen]
    norm_num

/-- C5 (amended): for every supported value type and every well-formed value
(`String`/`Vec<u8>` values of length below 2^32), decoding from a stream
`encode(v) ++ extra` succeeds, consumes exactly `len(encode(v))` bytes, and
leaves `extra` on the stream. -/
theorem claim_C5 (t : Ty) (v : t.denote) (hv : t.wf v) (extra : List Nat) :
    t.decode (t.encode v ++ extra) = .ok (v, (t.encode v).length) ∧
    (t.encode v ++ extra).drop (t.encode v).length = extra :=
  ⟨decode_encode_exact t v hv extra, List.drop_left' rfl⟩

/-- C6: `verify_checksum` reads exactly 8 more bytes from the stream as a
big-endian u64 and succeeds (consuming 8 bytes) exactly when that value
equals the accumulated digest; on mismatch it fails with an `InvalidData`
error whose message contains the expected digest and the actual digest in
hex together with the caller-supplied context. -/
theorem claim_C6 (actual : Nat) (ctx : String) (s : List Nat)
    (h8 : 8 ≤ s.length) :
    (verifyChecksum actual ctx s = .ok ((), 8) ↔ beVal (s.take 8) = actual) ∧
    (beVal (s.take 8) ≠ actual →
      verifyChecksum actual ctx s = .error (.invalidData,
        expectedPart ++ digitsHex actual ++ gotPart ++
          digitsHex (beVal (s.take 8)) ++ whilePart ++ ctx)) := by
  have heval : verifyChecksum actual ctx s =
      if actual = beVal (s.take 8) then .ok ((), 8)
      else .error (.invalidData, mismatchMsg actual (beVal (s.take 8)) ctx) := by
    unfold verifyChecksum
    rw [readN_of_le h8]
  rw [heval]
  by_cases hc : actual = beVal (s.take 8)
  · rw [if_pos hc]
    exact ⟨⟨fun _ => hc.symm, fun _ => rfl⟩, fun hne => absurd hc.symm hne⟩
  · rw [if_neg hc]
    constructor
    · constructor
      · intro h
        exact absurd h (by simp)
      · intro hbe
        exact absurd hbe.symm hc
    · intro _
      rfl

/-- C7: accumulation asymmetry of the checksum stream wrappers. On `write`,
the whole requested buffer is fed into the hash accumulator before
delegating to the inner writer, regardless of how many bytes the inner
writer accepts (or whether it errors); on `read`, only the bytes actually
read are fed into the accumulator, and a read returning zero bytes leaves
the accumulator unchanged. -/
theorem claim_C7 :
    (∀ (σ : Type) (W : InnerWriter σ) (hst : Nat) (st : σ) (buf : List Nat),
      (ChecksumWriter.write W (hst, st) buf).1.1 = crcFold hst buf) ∧
    (∀ (σ : Type) (R : InnerReader σ) (hst : Nat) (st : σ) (st' : σ)
        (cap : Nat) (bs : List Nat), R.read st cap = (st', .ok bs) →
      (ChecksumReader.read R (hst, st) cap).1.1 = crcFold hst bs) ∧
    (∀ (σ : Type) (R : InnerReader σ) (hst : Nat) (st : σ) (st' : σ)
        (cap : Nat), R.read st cap = (st', .ok []) →
      (ChecksumReader.read R (hst, st) cap).1.1 = hst) := by
  refine ⟨?_, ?_, ?_⟩
  · intro σ W hst st buf
    rfl
  · intro σ R hst st st' cap bs hr
    unfold ChecksumReader.read
    dsimp only
    rw [hr]
    cases bs with
    | nil => simp [crcFold]
    | cons c r => simp
  · intro σ R hst st st' cap hr
    unfold ChecksumReader.read
    dsimp only
    rw [hr]
    simp

/-- C7 witness: a concrete slice reader handing out one byte. -/
theorem claim_C7_witness :
    listReader.read [1, 2] 1 = ([2], .ok [1]) ∧
    (ChecksumReader.read listReader (crcInitReg, [1, 2]) 1).1.1 =
      crcFold crcInitReg [1] :=
  ⟨rfl, claim_C7.2.1 (List Nat) listReader crcInitReg [1, 2] [2] 1 [1] rfl⟩

/-- C8: the `Option<T>` codec. Decoding reads one tag byte and returns
`None` on 0; on 1 it returns `Some` of the subsequently decoded `T`; every
other tag byte yields an `InvalidData` error. Encoding writes tag 1
followed by `T` for `Some`, and the single byte 0 for `None`. -/
theorem claim_C8 (t : Ty) (rest : List Nat) :
    Ty.decode (.tOpt t) (0 :: rest) = .ok (none, 1) ∧
    Ty.decode (.tOpt t) (1 :: rest) =
      (match t.decode rest with
       | .ok (x, n) => .ok (some x, 1 + n)
       | .error e => .error e) ∧
    (∀ tag : Nat, 2 ≤ tag →
      Ty.decode (.tOpt t) (tag :: rest) =
        .error (.invalidData, invalidTagMsg ++ toString tag)) ∧
    (∀ x : t.denote, Ty.encode (.tOpt t) (some x) = 1 :: t.encode x) ∧
    Ty.encode (.tOpt t) (none : Option t.denote) = [0] := by
  refine ⟨?_, ?_, ?_, ?_, ?_⟩
  · have e1 : readN 1 ((0 : Nat) :: rest) = .ok ([0], 1) := by
      rw [readN_of_le (by simp)]
      rfl
    simp [Ty.decode, e1, beVal]
  · have e1 : readN 1 ((1 : Nat) :: rest) = .ok ([1], 1) := by
      rw [readN_of_le (by simp)]
      rfl
    simp only [Ty.decode, e1, beVal]
    norm_num
    cases hd : t.decode rest with
    | error e => rfl
    | ok p =>
      obtain ⟨x, n⟩ := p
      rfl
  · intro tag htag
    have e1 : readN 1 (tag :: rest) = .ok ([tag], 1) := by
      rw [readN_of_le (by simp)]
      rfl
    have h0 : ¬ tag = 0 := by omega
    have h1 : ¬ tag = 1 := by omega
    simp [Ty.decode, e1, beVal, h0, h1]
  · intro x
    simp [Ty.encode, beBytes]
  · simp [Ty.encode, beBytes]

/-- C8 witness: tag byte 7 is rejected. -/
theorem claim_C8_witness :
    (2 : Nat) ≤ 7 ∧
    Ty.decode (.tOpt .tU8) (7 :: []) =
      .error (.invalidData, invalidTagMsg ++ toString 7) :=
  ⟨by decide, (claim_C8 .tU8 []).2.2.1 7 (by decide)⟩

/-- C9: `Offset - Size`, `Offset - Offset` and `Size - Size` wrap around
unsigned modulo 2^64 when the subtrahend exceeds the minuend (release-build
semantics of the plain `-` the source uses; no checked or saturating
variant exists in the source). -/
theorem claim_C9 (a b : Nat) (ha : a < 2 ^ 64) (hb : b < 2 ^ 64)
    (hab : a < b) :
    Offset.subSize ⟨a⟩ ⟨b⟩ = ⟨2 ^ 64 - (b - a)⟩ ∧
    Offset.subOffset ⟨a⟩ ⟨b⟩ = ⟨2 ^ 64 - (b - a)⟩ ∧
    Size.subSize ⟨a⟩ ⟨b⟩ = ⟨2 ^ 64 - (b - a)⟩ := by
  have h : u64sub a b = 2 ^ 64 - (b - a) := by
    unfold u64sub
    rw [Nat.mod_eq_of_lt (by omega)]
    omega
  exact ⟨by simp [Offset.subSize, h], by simp [Offset.subOffset, h],
    by simp [Size.subSize, h]⟩

/-- C9 witness: `Offset(5) - Size(10)` wraps to 2^64 - 5. -/
theorem claim_C9_witness :
    (5 : Nat) < 2 ^ 64 ∧ (10 : Nat) < 2 ^ 64 ∧ (5 : Nat) < 10 ∧
    Offset.subSize ⟨5⟩ ⟨10⟩ = ⟨2 ^ 64 - (10 - 5)⟩ :=
  ⟨by decide, by decide, by decide,
    (claim_C9 5 10 (by decide) (by decide) (by decide)).1⟩

/-- C10: the `bool` codec encodes as one byte (1 for true, 0 for false) with
fixed encoded size 1; decoding reads one byte, returns false for 0 and true
for 1, and yields an `InvalidData` error for every byte value above 1. -/
theorem claim_C10 :
    boolEncodedSize = 1 ∧
    boolEncode true = [1] ∧
    boolEncode false = [0] ∧
    (∀ b : Bool, (boolEncode b).length = boolEncodedSize) ∧
    (∀ rest : List Nat, boolDecode (0 :: rest) = .ok (false, 1)) ∧
    (∀ rest : List Nat, boolDecode (1 :: rest) = .ok (true, 1)) ∧
    (∀ (v : Nat) (rest : List Nat), 1 < v →
      boolDecode (v :: rest) =
        .error (.invalidData, invalidBoolMsg ++ toString v)) := by
  refine ⟨rfl, rfl, rfl, ?_, ?_, ?_, ?_⟩
  · intro b
    cases b <;> rfl
  · intro rest
    have e1 : readN 1 ((0 : Nat) :: rest) = .ok ([0], 1) := by
      rw [readN_of_le (by simp)]
      rfl
    simp [boolDecode, e1, beVal]
  · intro rest
    have e1 : readN 1 ((1 : Nat) :: rest) = .ok ([1], 1) := by
      rw [readN_of_le (by simp)]
      rfl
    simp [boolDecode, e1, beVal]
  · intro v rest hv
    have e1 : readN 1 (v :: rest) = .ok ([v], 1) := by
      rw [readN_of_le (by simp)]
      rfl
    have hbv : beVal [v] = v := by simp [beVal]
    simp [boolDecode, e1, hbv, hv]

/-- C10 witness: byte value 2 is rejected. -/
theorem claim_C10_witness :
    (1 : Nat) < 2 ∧
    boolDecode (2 :: []) = .error (.invalidData, invalidBoolMsg ++ toString 2) :=
  ⟨by decide, claim_C10.2.2.2.2.2.2 2 [] (by decide)⟩

/-- C1 (amended): for `Segment` values and for `WithChecksum<T>` with the
fixed-width integer payloads u64, u32 and u8, changing any single byte of the
encoded output to a different byte value makes decoding return an error.
(For variable-length payloads such as `Vec<u8>`, corrupting the length
prefix can make decoding succeed — see the counterexample.) -/
theorem claim_C1 :
    (∀ off sz i b' : Nat, off < 2 ^ 64 → sz < 2 ^ 64 → i < 24 → b' < 256 →
      (Segment.encode ⟨off, sz⟩).getD i 0 ≠ b' →
      isErr (Segment.decode ((Segment.encode ⟨off, sz⟩).set i b')) = true) ∧
    (∀ v i b' : Nat, v < 2 ^ 64 → i < 16 → b' < 256 →
      (Ty.encode (.tWC .tU64) ⟨v⟩).getD i 0 ≠ b' →
      isErr (Ty.decode (.tWC .tU64)
        ((Ty.encode (.tWC .tU64) ⟨v⟩).set i b')) = true) ∧
    (∀ v i b' : Nat, v < 2 ^ 32 → i < 12 → b' < 256 →
      (Ty.encode (.tWC .tU32) ⟨v⟩).getD i 0 ≠ b' →
      isErr (Ty.decode (.tWC .tU32)
        ((Ty.encode (.tWC .tU32) ⟨v⟩).set i b')) = true) ∧
    (∀ v i b' : Nat, v < 2 ^ 8 → i < 9 → b' < 256 →
      (Ty.encode (.tWC .tU8) ⟨v⟩).getD i 0 ≠ b' →
      isErr (Ty.decode (.tWC .tU8)
        ((Ty.encode (.tWC .tU8) ⟨v⟩).set i b')) = true) := by
  refine ⟨?_, ?_, ?_, ?_⟩
  · intro off sz i b' _ _ hi hb hne
    exact segment_corrupt_detected off sz i b' hi hb hne
  · intro v i b' _ hi hb hne
    have henc : Ty.encode (.tWC .tU64) ⟨v⟩ =
        beBytes 8 v ++ beBytes 8 (crc32 (beBytes 8 v)) := by
      simp only [Ty.encode]
      rw [wcEncode_eq]
    rw [henc] at hne ⊢
    exact wc_fixed_corrupt (fun s hs => u64_decode_eval hs) (beBytes 8 v)
      (beBytes_length 8 v) (beBytes_lt 8 v) i b' (by omega) hb hne
  · intro v i b' _ hi hb hne
    have henc : Ty.encode (.tWC .tU32) ⟨v⟩ =
        beBytes 4 v ++ beBytes 8 (crc32 (beBytes 4 v)) := by
      simp only [Ty.encode]
      rw [wcEncode_eq]
    rw [henc] at hne ⊢
    exact wc_fixed_corrupt (fun s hs => u32_decode_eval hs) (beBytes 4 v)
      (beBytes_length 4 v) (beBytes_lt 4 v) i b' (by omega) hb hne
  · intro v i b' _ hi hb hne
    have henc : Ty.encode (.tWC .tU8) ⟨v⟩ =
        beBytes 1 v ++ beBytes 8 (crc32 (beBytes 1 v)) := by
      simp only [Ty.encode]
      rw [wcEncode_eq]
    rw [henc] at hne ⊢
    exact wc_fixed_corrupt (fun s hs => u8_decode_eval hs) (beBytes 1 v)
      (beBytes_length 1 v) (beBytes_lt 1 v) i b' (by omega) hb hne

/-- C1 counterexample: for the `WithChecksum<Vec<u8>>` value
`[0,0,0,0,0,0,0,0,144,162,121,169]` (a well-formed 12-byte vector), changing
byte 3 of its 24-byte encoding from 12 to 4 re-frames the stream: the
truncated length prefix makes the vector decoder read only 4 payload bytes,
and the next 8 bytes happen to hold exactly the CRC32 of the corrupted
prefix, so decoding succeeds and returns a value instead of an error. -/
theorem claim_C1_counterexample :
    (Ty.encode (.tWC .tVec) ⟨[0, 0, 0, 0, 0, 0, 0, 0, 144, 162, 121, 169]⟩).getD 3 0
      = 12 ∧
    (12 : Nat) ≠ 4 ∧
    Ty.wf (.tWC .tVec) ⟨[0, 0, 0, 0, 0, 0, 0, 0, 144, 162, 121, 169]⟩ ∧
    Ty.decode (.tWC .tVec)
      ((Ty.encode (.tWC .tVec)
        ⟨[0, 0, 0, 0, 0, 0, 0, 0, 144, 162, 121, 169]⟩).set 3 4) =
      .ok (⟨[0, 0, 0, 0]⟩, 16) := by
  refine ⟨rfl, by decide, ?_, rfl⟩
  show (∀ b ∈ ([0, 0, 0, 0, 0, 0, 0, 0, 144, 162, 121, 169] : List Nat),
      b < 256) ∧
    ([0, 0, 0, 0, 0, 0, 0, 0, 144, 162, 121, 169] : List Nat).length < 2 ^ 32
  decide

/-- C1 witness: corrupting byte 0 of `Segment::new(5, 10)`'s encoding. -/
theorem claim_C1_witness :
    (5 : Nat) < 2 ^ 64 ∧ (10 : Nat) < 2 ^ 64 ∧ (0 : Nat) < 24 ∧
    (1 : Nat) < 256 ∧ (Segment.encode ⟨5, 10⟩).getD 0 0 ≠ 1 ∧
    isErr (Segment.decode ((Segment.encode ⟨5, 10⟩).set 0 1)) = true :=
  ⟨by decide, by decide, by decide, by decide, by decide,
    claim_C1.1 5 10 0 1 (by decide) (by decide) (by decide) (by decide)
      (by decide)⟩

/-- C4 witness: the u8 value 7. -/
theorem claim_C4_witness :
    Ty.wf .tU8 7 ∧
    (Ty.decode .tU8 (Ty.encode .tU8 7) = .ok (7, (Ty.encode .tU8 7).length) ∧
      (∀ k : Nat, Ty.encodedSize .tU8 = some k → Ty.noNone .tU8 7 →
        (Ty.encode .tU8 7).length = k)) :=
  ⟨show (7 : Nat) < 2 ^ 8 by decide,
    claim_C4 .tU8 7 (show (7 : Nat) < 2 ^ 8 by decide)⟩

/-- C5 witness: the u8 value 7 with one extra trailing byte. -/
theorem claim_C5_witness :
    Ty.wf .tU8 7 ∧
    (Ty.decode .tU8 (Ty.encode .tU8 7 ++ [9]) =
        .ok (7, (Ty.encode .tU8 7).length) ∧
      (Ty.encode .tU8 7 ++ [9]).drop (Ty.encode .tU8 7).length = [9]) :=
  ⟨show (7 : Nat) < 2 ^ 8 by decide,
    claim_C5 .tU8 7 (show (7 : Nat) < 2 ^ 8 by decide) [9]⟩

/-- C6 witness: a stream holding the big-endian u64 value 5. -/
theorem claim_C6_witness :
    8 ≤ ([0, 0, 0, 0, 0, 0, 0, 5] : List Nat).length ∧
    ((verifyChecksum 5 segmentCtx [0, 0, 0, 0, 0, 0, 0, 5] = .ok ((), 8) ↔
        beVal (([0, 0, 0, 0, 0, 0, 0, 5] : List Nat).take 8) = 5) ∧
      (beVal (([0, 0, 0, 0, 0, 0, 0, 5] : List Nat).take 8) ≠ 5 →
        verifyChecksum 5 segmentCtx [0, 0, 0, 0, 0, 0, 0, 5] =
          .error (.invalidData,
            expectedPart ++ digitsHex 5 ++ gotPart ++
              digitsHex (beVal (([0, 0, 0, 0, 0, 0, 0, 5] : List Nat).take 8)) ++
              whilePart ++ segmentCtx))) :=
  ⟨by decide, claim_C6 5 segmentCtx [0, 0, 0, 0, 0, 0, 0, 5] (by decide)⟩
